import Mathlib

/-!
Shallow embedding of the `enum` Go package (src/enum.go): a process-wide
registry mapping enum type identities to their declared values, with the
operations `Def`, `IsValid`, `Validate`, `ValuesOf` and `Clear`.

The two Go maps are modelled as association lists:
* `defs : map[any]struct{}` keyed by `typeValue{typ, val}` becomes a list of
  `(TypeID × Value)` pairs queried by membership;
* `groups : map[typeID]any` holding `[]T` slices becomes a list of
  `(TypeID × List Value)` pairs with first-match lookup.
The mutex only serialises operations; each public operation is a single
atomic state transformation, so the embedding is a pure state-passing model.
-/

namespace Enum

/-- Runtime identity of an enum type, modelling `typeID = reflect.Type`:
`tag` distinguishes distinct named types (a `reflect.Type` is a unique
handle), `name` models `typ.Name()`, and `isString` models
`typ.Kind() == reflect.String`. Two distinct Go named types always have
distinct `reflect.Type` handles, hence distinct `TypeID` values here. -/
structure TypeID where
  tag : Nat
  name : String
  isString : Bool
deriving DecidableEq

/-- A value of an enum type's underlying representation: the `enumType`
constraint admits exactly the integer families and `~string`. -/
inductive Value where
  | intV : Int → Value
  | strV : String → Value
deriving DecidableEq

/-- The package-level registry state: `defs` models the membership map keyed
by `typeValue[T]{typ, val}`, `groups` models the map from type identity to
the slice of declared values. -/
structure Registry where
  defs : List (TypeID × Value)
  groups : List (TypeID × List Value)
deriving DecidableEq

/-- The initial state: both package-level maps start empty. -/
def emptyRegistry : Registry := ⟨[], []⟩

/-- Models the Go map lookup `groups[t]` (with its `ok` flag as `Option`). -/
def lookupGroup : List (TypeID × List Value) → TypeID → Option (List Value)
  | [], _ => none
  | (k, ws) :: rest, t => if k = t then some ws else lookupGroup rest t

/-- Models the Go map assignment `groups[t] = vs`. -/
def setGroup : List (TypeID × List Value) → TypeID → List Value → List (TypeID × List Value)
  | [], t, vs => [(t, vs)]
  | (k, ws) :: rest, t, vs => if k = t then (t, vs) :: rest else (k, ws) :: setGroup rest t vs

/-- Models `delete(groups, t)`. -/
def delGroup : List (TypeID × List Value) → TypeID → List (TypeID × List Value)
  | [], _ => []
  | (k, ws) :: rest, t => if k = t then delGroup rest t else (k, ws) :: delGroup rest t

/-- Models the loop in `Clear` that deletes from `defs` every key whose
type-assertion to `typeValue[T]` succeeds with `v.typ == typID`. -/
def delDefs : List (TypeID × Value) → TypeID → List (TypeID × Value)
  | [], _ => []
  | (k, w) :: rest, t => if k = t then delDefs rest t else (k, w) :: delDefs rest t

/-- Models the Go map membership test `_, ok := defs[k]`. -/
def defsHas (d : List (TypeID × Value)) (k : TypeID × Value) : Bool := decide (k ∈ d)

/-- `Def` (src/enum.go:52-64): defines `v` as a valid value of enum `T` and
returns it; a duplicate definition is ignored. The seen-before branch
returns the state unchanged; otherwise the key is added to `defs` and `v`
is appended to the type's slice (`append(vals, v)`, where a missing
`groups` entry type-asserts to the empty slice). -/
def Def (t : TypeID) (v : Value) (r : Registry) : Value × Registry :=
  if defsHas r.defs (t, v) then (v, r)
  else
    (v, ⟨r.defs ++ [(t, v)],
         setGroup r.groups t ((lookupGroup r.groups t).getD [] ++ [v])⟩)

/-- `IsValid` (src/enum.go:66-72): reports whether `v` is defined for enum
`T`, by membership of the composite key in `defs`. -/
def IsValid (t : TypeID) (v : Value) (r : Registry) : Bool :=
  defsHas r.defs (t, v)

/-- Models `fmt.Sprintf` with verb `%q` (`quoted = true`, chosen when
`typ.Kind() == reflect.String`) or `%v` on an enum value. `%q` on a Go
string produces a double-quoted literal, escaping quotes and backslashes
(the claims only exercise printable characters, so further escapes of
non-printables are not modelled); `%v` on an integer is its decimal form.
In Go a string-kinded enum always holds string values, so `%q` never meets
an integer; that unreachable combination is rendered as `%v`. -/
def goQuoteChar (c : Char) : String :=
  if c = '"' then "\\\"" else if c = '\\' then "\\\\" else String.singleton c

/-- Go-quote a string: the body of `%q` for printable characters. -/
def goQuote (s : String) : String :=
  "\"" ++ String.join (s.data.map goQuoteChar) ++ "\""

/-- Render one value under the selected format verb (see `goQuote`). -/
def render (quoted : Bool) : Value → String
  | .strV s => if quoted then goQuote s else s
  | .intV n => toString n

/-- `errMsg` (src/enum.go:114-124): builds the unknown-value message with a
`strings.Builder`: first the invalid value and the fixed text, then
`vals[0]`, then `", " ++ v` for each later element. The Go code indexes
`vals[0]` without a guard; `none` models the index-out-of-range panic that
an empty `vals` would cause. -/
def errMsg (quoted : Bool) (invalidVal : Value) (vals : List Value) : Option String :=
  match vals with
  | [] => none
  | v0 :: rest =>
    some (rest.foldl (fun sb v => sb ++ ", " ++ render quoted v)
      (render quoted invalidVal ++ " is not a valid choice, allowed values are: "
        ++ render quoted v0))

/-- Outcome of `Validate`: `ok` models a `nil` error, `err` a non-nil error
with its message, `panics` the runtime panic `errMsg` would raise on an
empty slice. -/
inductive VResult where
  | ok : VResult
  | err : String → VResult
  | panics : VResult
deriving DecidableEq

/-- `Validate` (src/enum.go:74-95): `nil` when the composite key is in
`defs`; otherwise the no-definition message when the type has no `groups`
entry, else the `errMsg` listing with `%q` for string-kinded types. -/
def Validate (t : TypeID) (v : Value) (r : Registry) : VResult :=
  if defsHas r.defs (t, v) then .ok
  else
    match lookupGroup r.groups t with
    | none => .err (t.name ++ " doesn't have any definition")
    | some s =>
      match errMsg t.isString v s with
      | some m => .err m
      | none => .panics

/-- Models `slices.Clone`: a fresh slice with the same elements; on
immutable lists the copy has the same value as the original. -/
def slicesClone (l : List Value) : List Value := l.map id

/-- `ValuesOf` (src/enum.go:97-107): a clone of the type's slice, or `nil`
(the empty list) when the type has no `groups` entry. -/
def ValuesOf (t : TypeID) (r : Registry) : List Value :=
  match lookupGroup r.groups t with
  | some vs => slicesClone vs
  | none => []

/-- `Clear` (src/enum.go:126-137): deletes the type's `groups` entry and
every `defs` key of that type. -/
def Clear (t : TypeID) (r : Registry) : Registry :=
  ⟨delDefs r.defs t, delGroup r.groups t⟩

/-- The state-changing operations a client program can perform. -/
inductive Op where
  | defOp : TypeID → Value → Op
  | clearOp : TypeID → Op

/-- One registry transition. -/
def step (r : Registry) : Op → Registry
  | .defOp t v => (Def t v r).2
  | .clearOp t => Clear t r

/-- Run a sequence of operations from a given state. -/
def runFrom (r : Registry) (ops : List Op) : Registry := ops.foldl step r

/-- Run a sequence of operations from the initial (empty) registry. -/
def runOps (ops : List Op) : Registry := runFrom emptyRegistry ops

/-- A declaration-only program, as a list of (type, value) pairs. -/
def defOps (ps : List (TypeID × Value)) : List Op := ps.map (fun p => Op.defOp p.1 p.2)

/-- Run a declaration-only program from the empty registry. -/
def runDefs (ps : List (TypeID × Value)) : Registry := runOps (defOps ps)

/-- The Declaration Sequence the registry currently stores for a type. -/
def declSeq (r : Registry) (t : TypeID) : List Value := (lookupGroup r.groups t).getD []

/-- The values a declaration-only program declares for type `t`, in order. -/
def valsFor (t : TypeID) : List (TypeID × Value) → List Value
  | [] => []
  | (u, w) :: ps => if u = t then w :: valsFor t ps else valsFor t ps

/-- One step of first-seen deduplication. -/
def seenFold (acc : List Value) (v : Value) : List Value :=
  if v ∈ acc then acc else acc ++ [v]

/-- First-seen order with duplicates dropped. -/
def firstSeen (l : List Value) : List Value := l.foldl seenFold []

/-- Invariant of every reachable registry state: a `groups` entry is never
an empty slice, the `defs` set and the stored sequence agree pointwise, and
the stored sequence has no duplicates. -/
def GoodState (r : Registry) : Prop :=
  (∀ t vs, lookupGroup r.groups t = some vs → vs ≠ []) ∧
  (∀ t v, (t, v) ∈ r.defs ↔ v ∈ declSeq r t) ∧
  (∀ t, (declSeq r t).Nodup)

/-- Comma-separated joining, written from the specification's wording
`<v1>, <v2>, …` (independently of the builder loop in `errMsg`). -/
def commaJoin : List String → String
  | [] => ""
  | [x] => x
  | x :: y :: ys => x ++ ", " ++ commaJoin (y :: ys)

/-- The failure message the specification prescribes, built from the
Declaration Sequence: the no-definition variant for an undeclared type,
otherwise the invalid value followed by the comma-separated allowed values
in first-declared order. -/
def specMsg (t : TypeID) (v : Value) (seq : List Value) : String :=
  if seq = [] then t.name ++ " doesn't have any definition"
  else render t.isString v ++ " is not a valid choice, allowed values are: "
    ++ commaJoin (seq.map (render t.isString))

/-! ### Lookup and membership lemmas for the two association-list maps -/

theorem defsHas_iff (d : List (TypeID × Value)) (k : TypeID × Value) :
    defsHas d k = true ↔ k ∈ d := by
  simp [defsHas]

theorem lookup_setGroup_self (g : List (TypeID × List Value)) (t : TypeID) (vs : List Value) :
    lookupGroup (setGroup g t vs) t = some vs := by
  induction g with
  | nil => simp [setGroup, lookupGroup]
  | cons p rest ih =>
    obtain ⟨k, ws⟩ := p
    by_cases h : k = t <;> simp [setGroup, lookupGroup, h, ih]

theorem lookup_setGroup_ne (g : List (TypeID × List Value)) (t u : TypeID) (vs : List Value)
    (h : u ≠ t) : lookupGroup (setGroup g t vs) u = lookupGroup g u := by
  have htu : ¬(t = u) := fun hh => h hh.symm
  induction g with
  | nil => simp [setGroup, lookupGroup, htu]
  | cons p rest ih =>
    obtain ⟨k, ws⟩ := p
    by_cases hk : k = t
    · rw [hk]
      simp only [setGroup, if_pos rfl, lookupGroup, if_neg htu]
    · simp only [setGroup, if_neg hk, lookupGroup]
      by_cases hu : k = u
      · rw [if_pos hu, if_pos hu]
      · rw [if_neg hu, if_neg hu, ih]

theorem lookup_delGroup_self (g : List (TypeID × List Value)) (t : TypeID) :
    lookupGroup (delGroup g t) t = none := by
  induction g with
  | nil => simp [delGroup, lookupGroup]
  | cons p rest ih =>
    obtain ⟨k, ws⟩ := p
    by_cases h : k = t
    · simp only [delGroup, if_pos h, ih]
    · simp only [delGroup, if_neg h, lookupGroup, if_neg h, ih]

theorem lookup_delGroup_ne (g : List (TypeID × List Value)) (t u : TypeID) (h : u ≠ t) :
    lookupGroup (delGroup g t) u = lookupGroup g u := by
  have htu : ¬(t = u) := fun hh => h hh.symm
  induction g with
  | nil => simp [delGroup]
  | cons p rest ih =>
    obtain ⟨k, ws⟩ := p
    by_cases hk : k = t
    · have h1 : delGroup ((k, ws) :: rest) t = delGroup rest t := by
        simp only [delGroup, if_pos hk]
      have h2 : lookupGroup ((k, ws) :: rest) u = lookupGroup rest u := by
        simp only [lookupGroup, if_neg (fun hku => htu (hk.symm.trans hku))]
      rw [h1, h2, ih]
    · simp only [delGroup, if_neg hk, lookupGroup]
      by_cases hu : k = u
      · rw [if_pos hu, if_pos hu]
      · rw [if_neg hu, if_neg hu, ih]

theorem mem_delDefs (d : List (TypeID × Value)) (t : TypeID) (p : TypeID × Value) :
    p ∈ delDefs d t ↔ p ∈ d ∧ p.1 ≠ t := by
  induction d with
  | nil => simp [delDefs]
  | cons q rest ih =>
    obtain ⟨k, w⟩ := q
    by_cases hk : k = t
    · simp only [delDefs, if_pos hk, ih, List.mem_cons]
      constructor
      · rintro ⟨hp, hne⟩
        exact ⟨Or.inr hp, hne⟩
      · rintro ⟨hp | hp, hne⟩
        · exact absurd (by rw [hp, hk]) hne
        · exact ⟨hp, hne⟩
    · simp only [delDefs, if_neg hk, List.mem_cons, ih]
      constructor
      · rintro (hp | ⟨hp, hne⟩)
        · refine ⟨Or.inl hp, ?_⟩
          rw [hp]
          exact hk
        · exact ⟨Or.inr hp, hne⟩
      · rintro ⟨hp | hp, hne⟩
        · exact Or.inl hp
        · exact Or.inr ⟨hp, hne⟩

/-! ### Behaviour of single operations -/

theorem Def_fst (t : TypeID) (v : Value) (r : Registry) : (Def t v r).1 = v := by
  unfold Def
  split <;> rfl

theorem mem_Def_defs (t : TypeID) (v : Value) (r : Registry) (p : TypeID × Value) :
    p ∈ ((Def t v r).2).defs ↔ p ∈ r.defs ∨ p = (t, v) := by
  unfold Def
  split
  · rename_i hmem
    rw [defsHas_iff] at hmem
    constructor
    · exact Or.inl
    · rintro (hp | hp)
      · exact hp
      · rw [hp]
        exact hmem
  · simp [List.mem_append]

theorem declSeq_Def_ne (t u : TypeID) (v : Value) (r : Registry) (h : u ≠ t) :
    declSeq ((Def t v r).2) u = declSeq r u := by
  unfold Def declSeq
  split
  · rfl
  · simp only
    rw [lookup_setGroup_ne _ _ _ _ h]

theorem declSeq_Def_self (t : TypeID) (v : Value) (r : Registry)
    (hJ : ((t, v) ∈ r.defs ↔ v ∈ declSeq r t)) :
    declSeq ((Def t v r).2) t = seenFold (declSeq r t) v := by
  unfold Def seenFold
  split
  · rename_i hmem
    rw [defsHas_iff] at hmem
    rw [if_pos (hJ.mp hmem)]
  · rename_i hmem
    have hnot : ¬v ∈ declSeq r t := fun hv => hmem ((defsHas_iff _ _).mpr (hJ.mpr hv))
    rw [if_neg hnot]
    show (lookupGroup (setGroup r.groups t (declSeq r t ++ [v])) t).getD [] = declSeq r t ++ [v]
    rw [lookup_setGroup_self]
    rfl

theorem lookup_Def_ne (t u : TypeID) (v : Value) (r : Registry) (h : u ≠ t) :
    lookupGroup ((Def t v r).2).groups u = lookupGroup r.groups u := by
  unfold Def
  split
  · rfl
  · simp only
    exact lookup_setGroup_ne _ _ _ _ h

theorem declSeq_Clear_self (t : TypeID) (r : Registry) : declSeq (Clear t r) t = [] := by
  unfold Clear declSeq
  simp only
  rw [lookup_delGroup_self]
  rfl

theorem declSeq_Clear_ne (t u : TypeID) (r : Registry) (h : u ≠ t) :
    declSeq (Clear t r) u = declSeq r u := by
  unfold Clear declSeq
  simp only
  rw [lookup_delGroup_ne _ _ _ h]

/-! ### The reachable-state invariant -/

theorem goodState_empty : GoodState emptyRegistry := by
  refine ⟨?_, ?_, ?_⟩
  · intro t vs hvs
    simp [emptyRegistry, lookupGroup] at hvs
  · intro t v
    simp [emptyRegistry, declSeq, lookupGroup]
  · intro t
    simp [emptyRegistry, declSeq, lookupGroup]

theorem goodState_Def (t : TypeID) (v : Value) (r : Registry) (hg : GoodState r) :
    GoodState ((Def t v r).2) := by
  obtain ⟨hne, hJ, hnd⟩ := hg
  by_cases hmem : defsHas r.defs (t, v) = true
  · unfold Def
    rw [if_pos hmem]
    exact ⟨hne, hJ, hnd⟩
  · have hv : ¬v ∈ declSeq r t := fun hv => hmem ((defsHas_iff _ _).mpr ((hJ t v).mpr hv))
    have hseq : ∀ u, declSeq ((Def t v r).2) u
        = if u = t then declSeq r t ++ [v] else declSeq r u := by
      intro u
      by_cases hu : u = t
      · rw [if_pos hu, hu, declSeq_Def_self t v r (hJ t v)]
        unfold seenFold
        rw [if_neg hv]
      · rw [if_neg hu, declSeq_Def_ne t u v r hu]
    have hdef : ∀ p, p ∈ ((Def t v r).2).defs ↔ p ∈ r.defs ∨ p = (t, v) :=
      mem_Def_defs t v r
    refine ⟨?_, ?_, ?_⟩
    · intro u vs hvs
      by_cases hu : u = t
      · have hd : declSeq ((Def t v r).2) u = declSeq r t ++ [v] := by
          rw [hseq u, if_pos hu]
        rw [declSeq, hvs, Option.getD_some] at hd
        rw [hd]
        simp
      · rw [lookup_Def_ne t u v r hu] at hvs
        exact hne u vs hvs
    · intro u w
      rw [hdef (u, w), hseq u]
      by_cases hu : u = t
      · subst hu
        rw [if_pos rfl]
        simp only [List.mem_append, List.mem_singleton]
        rw [hJ u w]
        constructor
        · rintro (hw | hw)
          · exact Or.inl hw
          · exact Or.inr (congrArg Prod.snd hw)
        · rintro (hw | hw)
          · exact Or.inl hw
          · exact Or.inr (by rw [hw])
      · rw [if_neg hu, hJ u w]
        constructor
        · rintro (hw | hw)
          · exact hw
          · exact absurd (congrArg Prod.fst hw) hu
        · exact Or.inl
    · intro u
      rw [hseq u]
      by_cases hu : u = t
      · rw [if_pos hu]
        exact List.Nodup.append (hnd t) (List.nodup_singleton v)
          (by simpa [List.disjoint_singleton] using hv)
      · rw [if_neg hu]
        exact hnd u

theorem goodState_Clear (t : TypeID) (r : Registry) (hg : GoodState r) :
    GoodState (Clear t r) := by
  obtain ⟨hne, hJ, hnd⟩ := hg
  refine ⟨?_, ?_, ?_⟩
  · intro u vs hvs
    by_cases hu : u = t
    · subst hu
      rw [show (Clear u r).groups = delGroup r.groups u from rfl, lookup_delGroup_self] at hvs
      exact absurd hvs (by simp)
    · rw [show (Clear t r).groups = delGroup r.groups t from rfl,
        lookup_delGroup_ne _ _ _ hu] at hvs
      exact hne u vs hvs
  · intro u w
    rw [show (Clear t r).defs = delDefs r.defs t from rfl, mem_delDefs]
    by_cases hu : u = t
    · subst hu
      rw [declSeq_Clear_self]
      simp
    · rw [declSeq_Clear_ne t u r hu]
      simp only [ne_eq]
      rw [hJ u w]
      constructor
      · rintro ⟨hw, _⟩
        exact hw
      · intro hw
        exact ⟨hw, hu⟩
  · intro u
    by_cases hu : u = t
    · subst hu
      rw [declSeq_Clear_self]
      exact List.nodup_nil
    · rw [declSeq_Clear_ne t u r hu]
      exact hnd u

theorem goodState_step (r : Registry) (o : Op) (hg : GoodState r) : GoodState (step r o) := by
  cases o with
  | defOp t v => exact goodState_Def t v r hg
  | clearOp t => exact goodState_Clear t r hg

theorem goodState_runFrom (r : Registry) (ops : List Op) (hg : GoodState r) :
    GoodState (runFrom r ops) := by
  induction ops generalizing r with
  | nil => exact hg
  | cons o rest ih => exact ih (step r o) (goodState_step r o hg)

theorem goodState_runOps (ops : List Op) : GoodState (runOps ops) :=
  goodState_runFrom emptyRegistry ops goodState_empty

/-! ### Declaration-only runs -/

theorem mem_runFrom_defOps (r : Registry) (ps : List (TypeID × Value)) (p : TypeID × Value) :
    p ∈ (runFrom r (defOps ps)).defs ↔ p ∈ r.defs ∨ p ∈ ps := by
  induction ps generalizing r with
  | nil => simp [runFrom, defOps]
  | cons q rest ih =>
    obtain ⟨t, v⟩ := q
    show p ∈ (runFrom ((Def t v r).2) (defOps rest)).defs ↔ _
    rw [ih, mem_Def_defs]
    simp only [List.mem_cons]
    tauto

theorem declSeq_runFrom_defOps (r : Registry) (ps : List (TypeID × Value)) (t : TypeID)
    (hg : GoodState r) :
    declSeq (runFrom r (defOps ps)) t = (valsFor t ps).foldl seenFold (declSeq r t) := by
  induction ps generalizing r with
  | nil => rfl
  | cons q rest ih =>
    obtain ⟨u, w⟩ := q
    show declSeq (runFrom ((Def u w r).2) (defOps rest)) t
      = (valsFor t ((u, w) :: rest)).foldl seenFold (declSeq r t)
    rw [ih _ (goodState_Def u w r hg)]
    by_cases hu : u = t
    · subst hu
      rw [declSeq_Def_self u w r (hg.2.1 u w)]
      have hv : valsFor u ((u, w) :: rest) = w :: valsFor u rest := by
        simp [valsFor]
      rw [hv, List.foldl_cons]
    · rw [declSeq_Def_ne u t w r (fun ht => hu ht.symm)]
      simp only [valsFor, if_neg hu]

theorem declSeq_runDefs (ps : List (TypeID × Value)) (t : TypeID) :
    declSeq (runDefs ps) t = firstSeen (valsFor t ps) := by
  rw [runDefs, runOps, declSeq_runFrom_defOps emptyRegistry ps t goodState_empty]
  rfl

/-! ### Message formatting -/

theorem strAppend_assoc (a b c : String) : a ++ b ++ c = a ++ (b ++ c) := by
  apply String.ext
  simp

/-- The tail of a comma-separated listing, one leading `", "` per element. -/
def commaTail (q : Bool) : List Value → String
  | [] => ""
  | w :: ws => ", " ++ render q w ++ commaTail q ws

theorem foldl_commaTail (q : Bool) (xs : List Value) (a : String) :
    xs.foldl (fun sb w => sb ++ ", " ++ render q w) a = a ++ commaTail q xs := by
  induction xs generalizing a with
  | nil => rw [List.foldl_nil, commaTail, String.append_empty]
  | cons w ws ih =>
    rw [List.foldl_cons, ih, commaTail]
    simp [strAppend_assoc]

theorem commaJoin_map (q : Bool) (v0 : Value) (xs : List Value) :
    commaJoin ((v0 :: xs).map (render q)) = render q v0 ++ commaTail q xs := by
  induction xs generalizing v0 with
  | nil => rw [List.map_singleton, commaJoin, commaTail, String.append_empty]
  | cons w ws ih =>
    show commaJoin (render q v0 :: render q w :: ws.map (render q)) = _
    have ihw := ih w
    rw [List.map_cons] at ihw
    rw [commaJoin, ihw, commaTail]
    simp [strAppend_assoc]

theorem errMsg_eq (q : Bool) (v v0 : Value) (rest : List Value) :
    errMsg q v (v0 :: rest)
      = some (render q v ++ " is not a valid choice, allowed values are: "
          ++ commaJoin ((v0 :: rest).map (render q))) := by
  rw [errMsg, foldl_commaTail, commaJoin_map]
  simp [strAppend_assoc]

theorem valuesOf_eq_declSeq (t : TypeID) (r : Registry) : ValuesOf t r = declSeq r t := by
  unfold ValuesOf declSeq slicesClone
  cases lookupGroup r.groups t with
  | none => rfl
  | some vs => simp

/-! ### Validate characterisation -/

theorem Def_already (t : TypeID) (v : Value) (r : Registry) (hmem : (t, v) ∈ r.defs) :
    (Def t v r).2 = r := by
  unfold Def
  rw [if_pos ((defsHas_iff _ _).mpr hmem)]

/-- C2: `Validate` returns nil exactly when `IsValid` is true, and it is the
sole operation with an error outcome: in this embedding `Def`, `IsValid`,
`ValuesOf` and `Clear` are total functions whose result types carry no
error case, while `Validate` alone returns a `VResult`. -/
theorem C2_validate_ok_iff_isValid (t : TypeID) (v : Value) (r : Registry) :
    Validate t v r = VResult.ok ↔ IsValid t v r = true := by
  unfold Validate IsValid
  by_cases h : defsHas r.defs (t, v) = true
  · rw [if_pos h]
    simp [h]
  · rw [if_neg h]
    constructor
    · intro hok
      exfalso
      revert hok
      cases hl : lookupGroup r.groups t with
      | none => simp
      | some s =>
        cases hm : errMsg t.isString v s with
        | none => simp [hm]
        | some m => simp [hm]
    · intro hv
      exact absurd hv h

theorem validate_spec_of_invalid (t : TypeID) (v : Value) (r : Registry) (hg : GoodState r)
    (h : IsValid t v r = false) :
    Validate t v r = VResult.err (specMsg t v (ValuesOf t r)) := by
  have hd : ¬defsHas r.defs (t, v) = true := by
    rw [IsValid] at h
    rw [h]
    simp
  unfold Validate
  rw [if_neg hd]
  cases hl : lookupGroup r.groups t with
  | none =>
    have hvals : ValuesOf t r = [] := by
      rw [valuesOf_eq_declSeq, declSeq, hl]
      rfl
    rw [hvals, specMsg, if_pos rfl]
  | some s =>
    have hs : s ≠ [] := hg.1 t s hl
    obtain ⟨v0, rest, hrest⟩ : ∃ v0 rest, s = v0 :: rest := by
      cases s with
      | nil => exact absurd rfl hs
      | cons a l => exact ⟨a, l, rfl⟩
    subst hrest
    have hvals : ValuesOf t r = v0 :: rest := by
      rw [valuesOf_eq_declSeq, declSeq, hl]
      rfl
    rw [hvals]
    have hsp : specMsg t v (v0 :: rest)
        = render t.isString v ++ " is not a valid choice, allowed values are: "
          ++ commaJoin ((v0 :: rest).map (render t.isString)) := by
      rw [specMsg, if_neg (by simp)]
    rw [hsp]
    show (match errMsg t.isString v (v0 :: rest) with
      | some m => VResult.err m
      | none => VResult.panics) = _
    rw [errMsg_eq]

/-! ### Claim theorems -/

/-- C1: over any declaration-only program, `IsValid(T, v)` is true iff the
pair `(T, v)` was passed to `Def` at least once, and on the initial
registry, with no declarations at all, `IsValid` returns false rather than
failing. -/
theorem C1_isValid_iff_declared (ps : List (TypeID × Value)) (t : TypeID) (v : Value) :
    (IsValid t v (runDefs ps) = true ↔ (t, v) ∈ ps)
      ∧ IsValid t v emptyRegistry = false := by
  constructor
  · rw [IsValid, defsHas_iff, runDefs, runOps, mem_runFrom_defOps]
    simp [emptyRegistry]
  · rw [IsValid, defsHas]
    simp [emptyRegistry]

theorem C1_witness :
    (IsValid ⟨0, "Status", true⟩ (Value.strV "draft")
        (runDefs [(⟨0, "Status", true⟩, Value.strV "draft")]) = true)
      ∧ IsValid ⟨1, "Access", false⟩ (Value.intV 1) emptyRegistry = false :=
  ⟨(C1_isValid_iff_declared [(⟨0, "Status", true⟩, Value.strV "draft")]
      ⟨0, "Status", true⟩ (Value.strV "draft")).1.mpr (by simp),
   (C1_isValid_iff_declared [] ⟨1, "Access", false⟩ (Value.intV 1)).2⟩

theorem C2_witness :
    Validate ⟨0, "Status", true⟩ (Value.strV "draft")
        (runDefs [(⟨0, "Status", true⟩, Value.strV "draft")]) = VResult.ok :=
  (C2_validate_ok_iff_isValid ⟨0, "Status", true⟩ (Value.strV "draft")
      (runDefs [(⟨0, "Status", true⟩, Value.strV "draft")])).mpr (by rfl)

/-- C3: declaring `x` for type `A` leaves every distinct type `B` entirely
alone: `IsValid(B, y)` is unchanged for every `y`, `B`'s Declaration Set
(membership in `defs`) is unchanged, and `B`'s stored Declaration Sequence
is unchanged. -/
theorem C3_def_scoped (A B : TypeID) (x y : Value) (r : Registry) (h : A ≠ B) :
    IsValid B y ((Def A x r).2) = IsValid B y r
      ∧ ((B, y) ∈ ((Def A x r).2).defs ↔ (B, y) ∈ r.defs)
      ∧ declSeq ((Def A x r).2) B = declSeq r B := by
  have hmem : ((B, y) ∈ ((Def A x r).2).defs ↔ (B, y) ∈ r.defs) := by
    rw [mem_Def_defs]
    constructor
    · rintro (hp | hp)
      · exact hp
      · exact absurd (congrArg Prod.fst hp) (Ne.symm h)
    · exact Or.inl
  refine ⟨?_, hmem, declSeq_Def_ne A B x r (Ne.symm h)⟩
  rw [IsValid, IsValid, defsHas, defsHas]
  exact decide_eq_decide.mpr hmem

theorem C3_witness :
    IsValid ⟨1, "UserStatus", true⟩ (Value.strV "pending")
        ((Def ⟨0, "OrderStatus", true⟩ (Value.strV "pending") emptyRegistry).2)
      = IsValid ⟨1, "UserStatus", true⟩ (Value.strV "pending") emptyRegistry
      ∧ ((⟨1, "UserStatus", true⟩, Value.strV "pending")
            ∈ ((Def ⟨0, "OrderStatus", true⟩ (Value.strV "pending") emptyRegistry).2).defs
          ↔ (⟨1, "UserStatus", true⟩, Value.strV "pending") ∈ emptyRegistry.defs)
      ∧ declSeq ((Def ⟨0, "OrderStatus", true⟩ (Value.strV "pending") emptyRegistry).2)
          ⟨1, "UserStatus", true⟩
        = declSeq emptyRegistry ⟨1, "UserStatus", true⟩ :=
  C3_def_scoped ⟨0, "OrderStatus", true⟩ ⟨1, "UserStatus", true⟩
    (Value.strV "pending") (Value.strV "pending") emptyRegistry (by simp)

/-- C4: declaring the same value twice yields exactly the state of declaring
it once, and after any declaration-only program the stored Declaration
Sequence of `t` is duplicate-free and lists the values declared for `t` in
first-seen order. -/
theorem C4_idempotent_nodup (t : TypeID) (v : Value) (r : Registry)
    (ps : List (TypeID × Value)) :
    (Def t v ((Def t v r).2)).2 = (Def t v r).2
      ∧ declSeq (runDefs ps) t = firstSeen (valsFor t ps)
      ∧ (declSeq (runDefs ps) t).Nodup := by
  refine ⟨?_, declSeq_runDefs ps t, ((goodState_runOps (defOps ps)).2.2 t)⟩
  exact Def_already t v ((Def t v r).2) ((mem_Def_defs t v r (t, v)).mpr (Or.inr rfl))

/-- C5: against any reachable registry, a failed `Validate` produces
exactly the message the specification prescribes: the no-definition
variant when the type has no declarations, otherwise the invalid value
followed by the comma-separated Declaration Sequence in first-declared
order, quoted iff the type is string-kinded (see `specMsg` and `render`). -/
theorem C5_message (ops : List Op) (t : TypeID) (v : Value)
    (h : IsValid t v (runOps ops) = false) :
    Validate t v (runOps ops) = VResult.err (specMsg t v (ValuesOf t (runOps ops))) :=
  validate_spec_of_invalid t v (runOps ops) (goodState_runOps ops) h

theorem C5_witness :
    IsValid ⟨0, "Status", true⟩ (Value.strV "postponed")
        (runOps (defOps [(⟨0, "Status", true⟩, Value.strV "draft"),
          (⟨0, "Status", true⟩, Value.strV "open")])) = false
      ∧ Validate ⟨0, "Status", true⟩ (Value.strV "postponed")
          (runOps (defOps [(⟨0, "Status", true⟩, Value.strV "draft"),
            (⟨0, "Status", true⟩, Value.strV "open")]))
        = VResult.err (specMsg ⟨0, "Status", true⟩ (Value.strV "postponed")
            (ValuesOf ⟨0, "Status", true⟩
              (runOps (defOps [(⟨0, "Status", true⟩, Value.strV "draft"),
                (⟨0, "Status", true⟩, Value.strV "open")])))) :=
  ⟨by rfl,
   C5_message (defOps [(⟨0, "Status", true⟩, Value.strV "draft"),
      (⟨0, "Status", true⟩, Value.strV "open")])
     ⟨0, "Status", true⟩ (Value.strV "postponed") (by rfl)⟩

/-- C6: after `Clear(T)` the registry treats `T` as never declared:
`IsValid` is false for every value, `ValuesOf` is empty, and `Validate`
fails with the no-definition message. -/
theorem C6_clear_resets (t : TypeID) (v : Value) (r : Registry) :
    IsValid t v (Clear t r) = false
      ∧ ValuesOf t (Clear t r) = []
      ∧ Validate t v (Clear t r) = VResult.err (t.name ++ " doesn't have any definition") := by
  have hmem : ¬(t, v) ∈ (Clear t r).defs := by
    rw [show (Clear t r).defs = delDefs r.defs t from rfl, mem_delDefs]
    rintro ⟨_, hne⟩
    exact hne rfl
  have hdh : defsHas (Clear t r).defs (t, v) = false := by
    rw [defsHas, decide_eq_false_iff_not]
    exact hmem
  refine ⟨hdh, ?_, ?_⟩
  · rw [valuesOf_eq_declSeq, declSeq_Clear_self]
  · unfold Validate
    rw [if_neg (by rw [hdh]; simp),
      show (Clear t r).groups = delGroup r.groups t from rfl, lookup_delGroup_self]

/-- C7: `ValuesOf` returns (a clone of) exactly the stored Declaration
Sequence — over a declaration-only program, the declared values in
first-seen order — and the empty sequence for a never-declared type.
The embedding is pure, so the returned copy is a value of its own:
no mutation of it can change the registry state. -/
theorem C7_valuesOf_order (t : TypeID) (r : Registry) (ps : List (TypeID × Value)) :
    ValuesOf t r = declSeq r t
      ∧ ValuesOf t (runDefs ps) = firstSeen (valsFor t ps)
      ∧ ValuesOf t emptyRegistry = [] := by
  refine ⟨valuesOf_eq_declSeq t r, ?_, by rfl⟩
  rw [valuesOf_eq_declSeq, declSeq_runDefs]

/-- C8: `Def` returns its argument unchanged, both on a fresh declaration
and on a re-declaration. -/
theorem C8_def_identity (t : TypeID) (v : Value) (r : Registry) :
    (Def t v r).1 = v ∧ (Def t v ((Def t v r).2)).1 = v :=
  ⟨Def_fst t v r, Def_fst t v ((Def t v r).2)⟩

/-- C9: `Clear(T)` leaves every distinct type `U` untouched: `IsValid`,
`Validate` and `ValuesOf` answer identically before and after. -/
theorem C9_clear_frame (T U : TypeID) (v : Value) (r : Registry) (h : U ≠ T) :
    IsValid U v (Clear T r) = IsValid U v r
      ∧ Validate U v (Clear T r) = Validate U v r
      ∧ ValuesOf U (Clear T r) = ValuesOf U r := by
  have hdh : defsHas (Clear T r).defs (U, v) = defsHas r.defs (U, v) := by
    rw [defsHas, defsHas]
    apply decide_eq_decide.mpr
    rw [show (Clear T r).defs = delDefs r.defs T from rfl, mem_delDefs]
    constructor
    · rintro ⟨hp, _⟩
      exact hp
    · intro hp
      exact ⟨hp, h⟩
  have hlk : lookupGroup (Clear T r).groups U = lookupGroup r.groups U := by
    rw [show (Clear T r).groups = delGroup r.groups T from rfl]
    exact lookup_delGroup_ne r.groups T U h
  refine ⟨?_, ?_, ?_⟩
  · rw [IsValid, IsValid, hdh]
  · unfold Validate
    rw [hdh, hlk]
  · unfold ValuesOf
    rw [hlk]

theorem C9_witness :
    IsValid ⟨1, "Access", false⟩ (Value.intV 1)
        (Clear ⟨0, "Status", true⟩
          (runDefs [(⟨1, "Access", false⟩, Value.intV 1)]))
      = IsValid ⟨1, "Access", false⟩ (Value.intV 1)
          (runDefs [(⟨1, "Access", false⟩, Value.intV 1)])
      ∧ Validate ⟨1, "Access", false⟩ (Value.intV 1)
          (Clear ⟨0, "Status", true⟩
            (runDefs [(⟨1, "Access", false⟩, Value.intV 1)]))
        = Validate ⟨1, "Access", false⟩ (Value.intV 1)
            (runDefs [(⟨1, "Access", false⟩, Value.intV 1)])
      ∧ ValuesOf ⟨1, "Access", false⟩
          (Clear ⟨0, "Status", true⟩
            (runDefs [(⟨1, "Access", false⟩, Value.intV 1)]))
        = ValuesOf ⟨1, "Access", false⟩
            (runDefs [(⟨1, "Access", false⟩, Value.intV 1)]) :=
  C9_clear_frame ⟨0, "Status", true⟩ ⟨1, "Access", false⟩ (Value.intV 1)
    (runDefs [(⟨1, "Access", false⟩, Value.intV 1)]) (by simp)

/-- C10: in every reachable registry state a `groups` entry is non-empty,
so the unguarded index `vals[0]` in `errMsg` is always in bounds and
`Validate` can never reach the panic outcome. -/
theorem C10_no_panic (ops : List Op) (t : TypeID) (v : Value) :
    (∀ vs, lookupGroup (runOps ops).groups t = some vs → vs ≠ [])
      ∧ Validate t v (runOps ops) ≠ VResult.panics := by
  have hg := goodState_runOps ops
  refine ⟨fun vs => hg.1 t vs, ?_⟩
  unfold Validate
  by_cases h : defsHas (runOps ops).defs (t, v) = true
  · rw [if_pos h]
    simp
  · rw [if_neg h]
    cases hl : lookupGroup (runOps ops).groups t with
    | none => simp
    | some s =>
      obtain ⟨v0, rest, hrest⟩ : ∃ v0 rest, s = v0 :: rest := by
        cases s with
        | nil => exact absurd rfl (hg.1 t [] hl)
        | cons a l => exact ⟨a, l, rfl⟩
      subst hrest
      show (match errMsg t.isString v (v0 :: rest) with
        | some m => VResult.err m
        | none => VResult.panics) ≠ VResult.panics
      rw [errMsg_eq]
      simp

theorem C10_witness :
    (∀ vs, lookupGroup
        (runOps (defOps [(⟨0, "Status", true⟩, Value.strV "draft")])).groups
        ⟨0, "Status", true⟩ = some vs → vs ≠ [])
      ∧ Validate ⟨0, "Status", true⟩ (Value.strV "postponed")
          (runOps (defOps [(⟨0, "Status", true⟩, Value.strV "draft")]))
        ≠ VResult.panics :=
  C10_no_panic (defOps [(⟨0, "Status", true⟩, Value.strV "draft")])
    ⟨0, "Status", true⟩ (Value.strV "postponed")

end Enum
